import Mathlib

/-!
# Verification of the J.A.R.V.I.S. intent router

Shallow embedding of the command classification pipeline of
`src/jarvis.py` (`SmartCommandProcessor`: `__init__`, `classify_command`,
`extract_search_query`, and the dispatch in
`EnhancedJarvisAssistant.process_command`), together with the keyword
router of `src/jarvis12/J.A.R.V.I.S.py` (`JarvisAssistant.process_command`).

The Python code matches utterances against a fixed, ordered table of
regular expressions via `re.search` (compiled with `re.IGNORECASE`).
The patterns only use the constructs: literal characters, `^`, `\b`,
`\s+`, `.+`, alternation of literal word sequences, and capturing
groups; we embed exactly that fragment with Python's backtracking
priority (alternatives tried left to right, `+` greedy, leftmost match
wins).  Character classes (`\s`, `\w`, `.`) and `str.lower`/`str.strip`
are modelled at ASCII level.
-/

namespace Jarvis

/-- Python `\s` (ASCII fragment): space (32), tab (9), newline (10),
carriage return (13), vertical tab (11), form feed (12). -/
def isSpaceCh (c : Char) : Bool :=
  decide (c.toNat = 32 ∨ c.toNat = 9 ∨ c.toNat = 10 ∨ c.toNat = 13 ∨
    c.toNat = 11 ∨ c.toNat = 12)

/-- Python `\w` (ASCII fragment): letters `a`-`z` and `A`-`Z`, digits
`0`-`9`, underscore. -/
def isWordCh (c : Char) : Bool :=
  decide ((97 ≤ c.toNat ∧ c.toNat ≤ 122) ∨ (65 ≤ c.toNat ∧ c.toNat ≤ 90) ∨
    (48 ≤ c.toNat ∧ c.toNat ≤ 57) ∨ c.toNat = 95)

/-- Python `.` without `re.DOTALL`: any character except newline. -/
def isDotCh (c : Char) : Bool := decide (c.toNat ≠ 10)

/-- ASCII model of Python `str.lower` on a single character: map `A`-`Z`
(65-90) to `a`-`z` (97-122), leave everything else alone. -/
def lowerChar (c : Char) : Char :=
  if 65 ≤ c.toNat ∧ c.toNat ≤ 90 then Char.ofNat (c.toNat + 32) else c

/-- ASCII model of Python `str.lower`. -/
def pyLowerL (l : List Char) : List Char := l.map lowerChar

/-- Model of Python `str.strip()`: drop leading and trailing whitespace. -/
def pyStripL (l : List Char) : List Char :=
  ((l.dropWhile isSpaceCh).reverse.dropWhile isSpaceCh).reverse

/-- `str.strip()` on `String`s. -/
def pyStrip (s : String) : String := String.mk (pyStripL s.data)

/-- `str.lower()` on `String`s. -/
def pyLower (s : String) : String := String.mk (pyLowerL s.data)

/-- The normalisation `classify_command` applies before matching:
`text.strip().lower()`. -/
def pyNorm (s : String) : List Char := pyLowerL (pyStripL s.data)

/-- The regular-expression fragment used by `SmartCommandProcessor`'s
pattern table: `^` (`bos`), `\b` (`wb`), literal characters (`chr`,
compared case-insensitively as `re.IGNORECASE` does), greedy `+` over a
character class (`clsPlus`, covering `\s+` and `.+`), sequencing,
alternation and capturing groups. -/
inductive RE where
  | bos : RE
  | wb : RE
  | chr : Char → RE
  | clsPlus : (Char → Bool) → RE
  | seq : RE → RE → RE
  | alt : RE → RE → RE
  | grp : RE → RE

/-- `\b` of Python `re`: true iff exactly one side of position `i` is a
word character (positions outside the string count as non-word). -/
def wordBoundary (s : List Char) (i : Nat) : Bool :=
  let before := match i with
    | 0 => false
    | j + 1 => match s.get? j with
      | some c => isWordCh c
      | none => false
  let after := match s.get? i with
    | some c => isWordCh c
    | none => false
  before != after

/-- Length of the maximal run of characters satisfying `p` starting at
position `i` of `s`. -/
def charRun (s : List Char) (p : Char → Bool) (i : Nat) : Nat :=
  ((s.drop i).takeWhile p).length

/-- The contiguous slice `s[i:j]` (Python slicing). -/
def slice (s : List Char) (i j : Nat) : List Char := (s.take j).drop i

/-- All ways the pattern can match starting at position `i`, as pairs of
(end position, captured groups in group-number order), listed in the
priority order of Python's backtracking engine: alternatives left to
right, greedy `+` longest first. -/
def mrun (s : List Char) : RE → Nat → List (Nat × List (List Char))
  | .bos, i => if i = 0 then [(i, [])] else []
  | .wb, i => if wordBoundary s i then [(i, [])] else []
  | .chr c, i =>
    match s.get? i with
    | some d => if lowerChar d = lowerChar c then [(i + 1, [])] else []
    | none => []
  | .clsPlus p, i =>
    (List.range (charRun s p i)).map (fun k => (i + charRun s p i - k, []))
  | .seq a b, i =>
    (mrun s a i).flatMap (fun x => (mrun s b x.1).map (fun y => (y.1, x.2 ++ y.2)))
  | .alt a b, i => mrun s a i ++ mrun s b i
  | .grp a, i => (mrun s a i).map (fun x => (x.1, slice s i x.1 :: x.2))

/-- `re.search` scanning loop: try each start position from `i`
(left to right), return the captured groups of the first match. -/
def searchFrom (s : List Char) (re : RE) : Nat → Nat → Option (List (List Char))
  | _, 0 => none
  | i, fuel + 1 =>
    match mrun s re i with
    | [] => searchFrom s re (i + 1) fuel
    | x :: _ => some x.2

/-- `pattern.search(s)`: leftmost match, returning `match.groups()`
(`none` when there is no match). -/
def reSearch (re : RE) (s : List Char) : Option (List (List Char)) :=
  searchFrom s re 0 (s.length + 1)

/-- A literal word: a sequence of literal characters. -/
def lit (w : String) : RE :=
  match w.data with
  | [] => .bos  -- unused: all literals in the table are non-empty
  | c :: cs => cs.foldl (fun r d => RE.seq r (RE.chr d)) (RE.chr c)

/-- `\s+`. -/
def wsP : RE := RE.clsPlus isSpaceCh

/-- `.+`. -/
def dotP : RE := RE.clsPlus isDotCh

/-- Words joined by `\s+`, e.g. `words ["tell", "me"]` is
`tell\s+me`. -/
def words (ws : List String) : RE :=
  match ws with
  | [] => .bos  -- unused: all word lists in the table are non-empty
  | w :: rest => rest.foldl (fun r v => RE.seq r (RE.seq wsP (lit v))) (lit w)

/-- Alternation `x1|x2|...|xn` (left-to-right priority). -/
def altList (rs : List RE) : RE :=
  match rs with
  | [] => .bos  -- unused: all alternations in the table are non-empty
  | r :: rest => rest.foldl RE.alt r

/-! ## The pattern table of `SmartCommandProcessor.__init__` -/

/-- Pattern `\b(what\s+time|current\s+time|time\s+is|tell\s+me\s+the\s+time)\b`. -/
def pat_time_1 : RE :=
  .seq .wb (.seq (.grp (altList
    [words ["what", "time"], words ["current", "time"],
     words ["time", "is"], words ["tell", "me", "the", "time"]])) .wb)

/-- Pattern `\btime\b`. -/
def pat_time_2 : RE := .seq .wb (.seq (lit "time") .wb)

/-- Pattern `\b(what\s+date|current\s+date|date\s+is|today\s+is)\b`. -/
def pat_date_1 : RE :=
  .seq .wb (.seq (.grp (altList
    [words ["what", "date"], words ["current", "date"],
     words ["date", "is"], words ["today", "is"]])) .wb)

/-- Pattern `\bdate\b`. -/
def pat_date_2 : RE := .seq .wb (.seq (lit "date") .wb)

/-- Pattern `\b(weather|temperature|forecast|climate)\b`. -/
def pat_weather_1 : RE :=
  .seq .wb (.seq (.grp (altList
    [lit "weather", lit "temperature", lit "forecast", lit "climate"])) .wb)

/-- Pattern `^(search\s+for|look\s+up|find\s+information\s+about|tell\s+me\s+about)\s+(.+)`. -/
def pat_search_1 : RE :=
  .seq .bos (.seq (.grp (altList
    [words ["search", "for"], words ["look", "up"],
     words ["find", "information", "about"], words ["tell", "me", "about"]]))
    (.seq wsP (.grp dotP)))

/-- Pattern `^(what\s+is|who\s+is|where\s+is|when\s+is|how\s+is)\s+(.+)`. -/
def pat_search_2 : RE :=
  .seq .bos (.seq (.grp (altList
    [words ["what", "is"], words ["who", "is"], words ["where", "is"],
     words ["when", "is"], words ["how", "is"]]))
    (.seq wsP (.grp dotP)))

/-- Pattern `^(define|explain|describe)\s+(.+)`. -/
def pat_search_3 : RE :=
  .seq .bos (.seq (.grp (altList [lit "define", lit "explain", lit "describe"]))
    (.seq wsP (.grp dotP)))

/-- Pattern `^open\s+(.+)`. -/
def pat_open_1 : RE := .seq .bos (.seq (lit "open") (.seq wsP (.grp dotP)))

/-- Pattern `^go\s+to\s+(.+)`. -/
def pat_open_2 : RE := .seq .bos (.seq (words ["go", "to"]) (.seq wsP (.grp dotP)))

/-- Pattern `^navigate\s+to\s+(.+)`. -/
def pat_open_3 : RE :=
  .seq .bos (.seq (words ["navigate", "to"]) (.seq wsP (.grp dotP)))

/-- Pattern `\b(hello|hi|hey|greetings|good\s+morning|good\s+afternoon|good\s+evening)\b`. -/
def pat_greeting_1 : RE :=
  .seq .wb (.seq (.grp (altList
    [lit "hello", lit "hi", lit "hey", lit "greetings",
     words ["good", "morning"], words ["good", "afternoon"],
     words ["good", "evening"]])) .wb)

/-- Pattern `\b(thank\s+you|thanks|appreciate|grateful)\b`. -/
def pat_thanks_1 : RE :=
  .seq .wb (.seq (.grp (altList
    [words ["thank", "you"], lit "thanks", lit "appreciate", lit "grateful"])) .wb)

/-- Pattern `\b(how\s+are\s+you|status|condition|state)\b`. -/
def pat_status_1 : RE :=
  .seq .wb (.seq (.grp (altList
    [words ["how", "are", "you"], lit "status", lit "condition", lit "state"])) .wb)

/-- Pattern `\b(clear\s+screen|clear\s+display|clean\s+screen)\b`. -/
def pat_clear_1 : RE :=
  .seq .wb (.seq (.grp (altList
    [words ["clear", "screen"], words ["clear", "display"],
     words ["clean", "screen"]])) .wb)

/-- `self.command_patterns` of `SmartCommandProcessor.__init__`: the
ordered intent table (Python dicts preserve insertion order). -/
def command_patterns : List (String × List RE) :=
  [("time", [pat_time_1, pat_time_2]),
   ("date", [pat_date_1, pat_date_2]),
   ("weather", [pat_weather_1]),
   ("search", [pat_search_1, pat_search_2, pat_search_3]),
   ("open_website", [pat_open_1, pat_open_2, pat_open_3]),
   ("greeting", [pat_greeting_1]),
   ("thanks", [pat_thanks_1]),
   ("status", [pat_status_1]),
   ("clear", [pat_clear_1])]

/-! ## `classify_command` and `extract_search_query` -/

/-- Result payload of `classify_command`: Python returns `None` when the
winning pattern has no capture groups, the tuple `groups` when it does,
and the normalised text when nothing matches (`general`).  Every group
of every pattern in the table sits on a mandatory path of its pattern
(no `?`, `*` or group-under-alternation), so a successful match always
assigns every group a (non-`None`) string; captures are therefore
`List String`. -/
inductive Payload where
  | none : Payload
  | groups : List String → Payload
  | text : String → Payload
deriving DecidableEq, Repr

/-- Inner loop of `classify_command` over one intent's pattern list:
first pattern whose `search` succeeds wins, returning `match.groups()`. -/
def firstPat (pats : List RE) (t : List Char) : Option (List (List Char)) :=
  match pats with
  | [] => Option.none
  | p :: rest =>
    match reSearch p t with
    | some gs => some gs
    | Option.none => firstPat rest t

/-- Outer loop of `classify_command` over the intent table. -/
def firstMatch (tbl : List (String × List RE)) (t : List Char) :
    Option (String × List (List Char)) :=
  match tbl with
  | [] => Option.none
  | (c, pats) :: rest =>
    match firstPat pats t with
    | some gs => some (c, gs)
    | Option.none => firstMatch rest t

/-- `SmartCommandProcessor.classify_command`, parameterised by the rule
table: normalise with `text.strip().lower()`, scan the table in order,
and on a match return `groups if groups else None`; with no match
return `('general', text)`. -/
def classify_with (tbl : List (String × List RE)) (text : String) :
    String × Payload :=
  match firstMatch tbl (pyNorm text) with
  | some (c, gs) =>
    (c, if gs.isEmpty then Payload.none
        else Payload.groups (gs.map String.mk))
  | Option.none => ("general", Payload.text (String.mk (pyNorm text)))

/-- `SmartCommandProcessor.classify_command` with the table built by
`__init__`. -/
def classify_command (text : String) : String × Payload :=
  classify_with command_patterns text

/-- The prefix list of `extract_search_query`. -/
def query_prefixes : List String :=
  ["search for", "look up", "find information about", "tell me about",
   "what is", "who is", "where is", "when is", "how is",
   "define", "explain", "describe"]

/-- Fallback loop of `extract_search_query`: find the first `pfx` in
the list with `text_lower.startswith(pfx)` and return
`text[len(pfx):].strip()`; else return `text` unchanged. -/
def stripQueryPfx (pfxs : List String) (text : String) : String :=
  match pfxs with
  | [] => text
  | pfx :: rest =>
    if pfx.data.isPrefixOf (pyLowerL text.data) then
      String.mk (pyStripL (text.data.drop pfx.length))
    else stripQueryPfx rest text

/-- `SmartCommandProcessor.extract_search_query`: with a non-empty
group tuple, return `groups[-1].strip()`; otherwise strip the first
matching phrase prefix from `text` (comparing lower-cased) and trim,
or return `text` unchanged when none matches. -/
def extract_search_query (text : String) (groups : Option (List String)) :
    String :=
  match groups with
  | some (g :: gs) => pyStrip ((g :: gs).getLastD "")
  | _ => stripQueryPfx query_prefixes text

/-! ## The `SmartCommandProcessor` object

`classify_command` is a method on an object whose only relevant state is
the rule table built once by `__init__`; the method reads the table and
never assigns to it.  We model the object and the method as explicit
state passing to make statelessness a provable statement. -/

/-- The `SmartCommandProcessor` object: its state is the pattern table
built by `__init__` (the compiled form matches the source table
one-to-one). -/
structure SmartCommandProcessor where
  patterns : List (String × List RE)

/-- `SmartCommandProcessor()` constructor. -/
def SmartCommandProcessor.init : SmartCommandProcessor :=
  ⟨command_patterns⟩

/-- The `classify_command` method as a state-passing function: it reads
`self.compiled_patterns` and performs no assignment, so it returns
`self` unchanged. -/
def SmartCommandProcessor.classify (self : SmartCommandProcessor)
    (text : String) : (String × Payload) × SmartCommandProcessor :=
  (classify_with self.patterns text, self)

/-! ## The jarvis12 variant (`JarvisAssistant.process_command`)

The second source file routes commands with a flat chain of `if`
statements over `cmd = command.lower().strip()`: exact-string lists for
time and date, substring and `startswith` tests for the rest, and a
final fall-through to the chat-model / canned-response branch.  We
model the chain as a function from the raw command to the name of the
branch taken. -/

/-- Substring test (`x in cmd` on Python strings): `needle` occurs as a
contiguous run somewhere in `hay`. -/
def strContains (hay needle : List Char) : Bool :=
  (List.range (hay.length + 1)).any (fun i => needle.isPrefixOf (hay.drop i))

/-- The routing chain of `JarvisAssistant.process_command` in
`src/jarvis12/J.A.R.V.I.S.py`, reduced to which branch handles the
command; `"fallback"` is the trailing chat-model / canned-response
branch. -/
def jarvis12_route (command : String) : String :=
  let cmd := pyStripL (pyLowerL command.data)
  if cmd = "time".data ∨ cmd = "what time".data ∨ cmd = "what's the time".data then
    "time"
  else if cmd = "date".data ∨ cmd = "what date".data ∨ cmd = "what's the date".data then
    "date"
  else if strContains cmd "clear".data ∧ strContains cmd "screen".data then
    "clear"
  else if ["hello", "hi", "hey", "greetings"].any
      (fun w => strContains cmd w.data) then
    "greeting"
  else if ["thank", "thanks", "appreciate"].any
      (fun w => strContains cmd w.data) then
    "thanks"
  else if ["how are you", "how do you do"].any
      (fun w => strContains cmd w.data) then
    "status"
  else if "search for ".data.isPrefixOf cmd ∨ "look up ".data.isPrefixOf cmd then
    "search"
  else if "open ".data.isPrefixOf cmd then
    "open"
  else if strContains cmd "weather".data then
    "weather"
  else if strContains cmd "news".data then
    "news"
  else
    "fallback"

/-- Syntactic test: the pattern contains no capturing group (used to
show that captures inside a group-free subpattern are empty). -/
def noGrp : RE → Bool
  | .bos => true
  | .wb => true
  | .chr _ => true
  | .clsPlus _ => true
  | .seq a b => noGrp a && noGrp b
  | .alt a b => noGrp a && noGrp b
  | .grp _ => false

/-! ## Character-level lemmas -/

theorem char_toNat_ofNat (m : Nat) (h : m < 55296) : (Char.ofNat m).toNat = m := by
  have hv : m.isValidChar := Or.inl h
  unfold Char.ofNat
  rw [dif_pos hv]
  rfl

theorem lowerChar_toNat (c : Char) :
    (lowerChar c).toNat =
      if 65 ≤ c.toNat ∧ c.toNat ≤ 90 then c.toNat + 32 else c.toNat := by
  unfold lowerChar
  split
  · next h => exact char_toNat_ofNat _ (by omega)
  · rfl

theorem isSpaceCh_lowerChar (c : Char) : isSpaceCh (lowerChar c) = isSpaceCh c := by
  have h := lowerChar_toNat c
  unfold isSpaceCh
  by_cases hc : 65 ≤ c.toNat ∧ c.toNat ≤ 90
  · rw [if_pos hc] at h
    rw [h]
    simp only [decide_eq_decide]
    omega
  · rw [if_neg hc] at h
    rw [h]

theorem lowerChar_eq_self (c : Char) (h : ¬(65 ≤ c.toNat ∧ c.toNat ≤ 90)) :
    lowerChar c = c := by
  unfold lowerChar
  exact if_neg h

theorem lowerChar_idem (c : Char) : lowerChar (lowerChar c) = lowerChar c := by
  apply lowerChar_eq_self
  have h := lowerChar_toNat c
  by_cases hc : 65 ≤ c.toNat ∧ c.toNat ≤ 90
  · rw [if_pos hc] at h
    omega
  · rw [if_neg hc] at h
    omega

/-! ## Normalisation lemmas -/

theorem pyLowerL_idem (l : List Char) : pyLowerL (pyLowerL l) = pyLowerL l := by
  unfold pyLowerL
  rw [List.map_map]
  exact List.map_congr_left (fun c _ => lowerChar_idem c)

theorem head?_dropWhile {p : Char → Bool} {l : List Char} {c : Char}
    (h : (l.dropWhile p).head? = some c) : p c = false := by
  induction l with
  | nil => simp [List.dropWhile] at h
  | cons a l ih =>
    rw [List.dropWhile_cons] at h
    by_cases hp : p a
    · rw [if_pos hp] at h
      exact ih h
    · rw [if_neg hp] at h
      simp at h
      subst h
      simpa using hp

theorem getLast?_dropWhile {p : Char → Bool} {l : List Char}
    (h : l.dropWhile p ≠ []) : (l.dropWhile p).getLast? = l.getLast? := by
  induction l with
  | nil => simp [List.dropWhile] at h
  | cons a l ih =>
    rw [List.dropWhile_cons]
    by_cases hp : p a
    · rw [List.dropWhile_cons, if_pos hp] at h
      rw [if_pos hp, ih h]
      cases l with
      | nil => simp [List.dropWhile] at h
      | cons b m => rw [List.getLast?_cons_cons]
    · rw [if_neg hp]

theorem pyStripL_head {l : List Char} {c : Char}
    (h : (pyStripL l).head? = some c) : isSpaceCh c = false := by
  unfold pyStripL at h
  set a := l.dropWhile isSpaceCh with ha
  set x := a.reverse.dropWhile isSpaceCh with hx
  have hxne : x ≠ [] := by
    intro he
    rw [he] at h
    simp at h
  rw [List.head?_reverse] at h
  rw [hx] at h
  rw [getLast?_dropWhile (hx ▸ hxne)] at h
  rw [List.getLast?_reverse] at h
  exact head?_dropWhile (ha ▸ h)

theorem pyStripL_getLast {l : List Char} {c : Char}
    (h : (pyStripL l).getLast? = some c) : isSpaceCh c = false := by
  unfold pyStripL at h
  rw [List.getLast?_reverse] at h
  exact head?_dropWhile h

theorem dropWhile_eq_self_of_head {p : Char → Bool} {l : List Char}
    (h : ∀ c, l.head? = some c → p c = false) : l.dropWhile p = l := by
  cases l with
  | nil => rfl
  | cons a l =>
    rw [List.dropWhile_cons, if_neg]
    simp [h a rfl]

theorem pyStripL_eq_self {l : List Char}
    (hh : ∀ c, l.head? = some c → isSpaceCh c = false)
    (hl : ∀ c, l.getLast? = some c → isSpaceCh c = false) :
    pyStripL l = l := by
  unfold pyStripL
  rw [dropWhile_eq_self_of_head hh]
  rw [dropWhile_eq_self_of_head (fun c hc => hl c (by rwa [List.head?_reverse] at hc))]
  exact List.reverse_reverse l

theorem pyStripL_idem (l : List Char) : pyStripL (pyStripL l) = pyStripL l :=
  pyStripL_eq_self (fun _ h => pyStripL_head h) (fun _ h => pyStripL_getLast h)

/-- The head of the normalised utterance is never whitespace. -/
theorem pyNorm_head_not_space (s : String) {c : Char}
    (hc : (pyNorm s).head? = some c) : isSpaceCh c = false := by
  unfold pyNorm pyLowerL at hc
  rw [List.head?_map] at hc
  cases hh : (pyStripL s.data).head? with
  | none => rw [hh] at hc; simp at hc
  | some d =>
    rw [hh] at hc
    simp at hc
    rw [← hc, isSpaceCh_lowerChar]
    exact pyStripL_head hh

/-- The last character of the normalised utterance is never whitespace. -/
theorem pyNorm_getLast_not_space (s : String) {c : Char}
    (hc : (pyNorm s).getLast? = some c) : isSpaceCh c = false := by
  unfold pyNorm pyLowerL at hc
  rw [List.getLast?_map] at hc
  cases hh : (pyStripL s.data).getLast? with
  | none => rw [hh] at hc; simp at hc
  | some d =>
    rw [hh] at hc
    simp at hc
    rw [← hc, isSpaceCh_lowerChar]
    exact pyStripL_getLast hh

/-- Normalising an already-normalised string changes nothing:
`s.strip().lower().strip().lower() = s.strip().lower()`. -/
theorem pyNorm_mk_pyNorm (s : String) : pyNorm (String.mk (pyNorm s)) = pyNorm s := by
  show pyLowerL (pyStripL (pyNorm s)) = pyNorm s
  have hstrip : pyStripL (pyNorm s) = pyNorm s :=
    pyStripL_eq_self (fun _ h => pyNorm_head_not_space s h)
      (fun _ h => pyNorm_getLast_not_space s h)
  rw [hstrip]
  exact pyLowerL_idem _

/-! ## Table-scanning lemmas -/

theorem firstPat_eq_none_iff {pats : List RE} {t : List Char} :
    firstPat pats t = Option.none ↔ ∀ p ∈ pats, reSearch p t = Option.none := by
  induction pats with
  | nil => simp [firstPat]
  | cons p rest ih =>
    cases hr : reSearch p t with
    | some gs => simp [firstPat, hr]
    | none => simp [firstPat, hr, ih]

theorem firstMatch_eq_none_iff {tbl : List (String × List RE)} {t : List Char} :
    firstMatch tbl t = Option.none ↔ ∀ e ∈ tbl, firstPat e.2 t = Option.none := by
  induction tbl with
  | nil => simp [firstMatch]
  | cons e rest ih =>
    cases hf : firstPat e.2 t with
    | some gs => simp [firstMatch, hf]
    | none => simp [firstMatch, hf, ih]

theorem firstMatch_mem {tbl : List (String × List RE)} {t : List Char}
    {c : String} {gs : List (List Char)} (h : firstMatch tbl t = some (c, gs)) :
    ∃ pats, (c, pats) ∈ tbl ∧ firstPat pats t = some gs := by
  induction tbl with
  | nil => simp [firstMatch] at h
  | cons e rest ih =>
    rw [firstMatch] at h
    cases hf : firstPat e.2 t with
    | some gs' =>
      rw [hf] at h
      simp at h
      exact ⟨e.2, by rw [← h.1]; exact List.mem_cons_self _ _, by rw [hf, h.2]⟩
    | none =>
      rw [hf] at h
      obtain ⟨pats, hmem, hfp⟩ := ih h
      exact ⟨pats, List.mem_cons_of_mem _ hmem, hfp⟩

theorem firstMatch_earliest :
    ∀ (tbl : List (String × List RE)) (t : List Char) (i : Nat) (hi : i < tbl.length),
      (∃ p ∈ (tbl.get ⟨i, hi⟩).2, reSearch p t ≠ Option.none) →
      ∃ k, ∃ hk : k < tbl.length, k ≤ i ∧
        ∃ gs, firstMatch tbl t = some ((tbl.get ⟨k, hk⟩).1, gs) := by
  intro tbl
  induction tbl with
  | nil => intro t i hi; exact absurd hi (by simp)
  | cons e rest ih =>
    intro t i hi hm
    cases hfp : firstPat e.2 t with
    | some gs =>
      exact ⟨0, by simp, Nat.zero_le i, gs, by simp [firstMatch, hfp]⟩
    | none =>
      cases i with
      | zero =>
        obtain ⟨p, hp, hne⟩ := hm
        exact absurd (firstPat_eq_none_iff.mp hfp p hp) hne
      | succ j =>
        obtain ⟨k, hk, hkj, gs, hg⟩ := ih t j (by simpa using hi) hm
        refine ⟨k + 1, by simpa using hk, by omega, gs, ?_⟩
        rw [firstMatch, hfp]
        exact hg

theorem classify_command_eq (text : String) :
    classify_command text = classify_with command_patterns text := rfl

theorem classify_with_of_some {tbl : List (String × List RE)} {text : String}
    {c : String} {gs : List (List Char)}
    (h : firstMatch tbl (pyNorm text) = some (c, gs)) :
    classify_with tbl text =
      (c, if gs.isEmpty then Payload.none else Payload.groups (gs.map String.mk)) := by
  unfold classify_with
  rw [h]

theorem classify_with_of_none {tbl : List (String × List RE)} {text : String}
    (h : firstMatch tbl (pyNorm text) = Option.none) :
    classify_with tbl text = ("general", Payload.text (String.mk (pyNorm text))) := by
  unfold classify_with
  rw [h]

/-! ## Claim theorems -/

/-- C1: `classify_command` iterates intents in table-declaration order
and patterns in list order; the first pattern whose search succeeds wins
immediately.  Hence whenever an earlier-declared intent has a matching
pattern, a later-declared intent is never returned; in particular
`classify_command "what is the time"` is `('time', None)`, not
`search`. -/
theorem classify_command_priority_order :
    (∀ (s : String) (i j : Fin command_patterns.length), i < j →
        (∃ p ∈ (command_patterns.get i).2, reSearch p (pyNorm s) ≠ Option.none) →
        (classify_command s).1 ≠ (command_patterns.get j).1) ∧
    classify_command "what is the time" = ("time", Payload.none) := by
  refine ⟨?_, by decide⟩
  intro s i j hij hm heq
  obtain ⟨k, hk, hki, gs, hg⟩ :=
    firstMatch_earliest command_patterns (pyNorm s) i.1 i.2 hm
  have hfst : (classify_command s).1 = (command_patterns.get ⟨k, hk⟩).1 := by
    rw [classify_command_eq, classify_with_of_some hg]
  have hnames : ∀ (a b : Fin command_patterns.length),
      a ≠ b → (command_patterns.get a).1 ≠ (command_patterns.get b).1 := by decide
  have hkj : (⟨k, hk⟩ : Fin command_patterns.length) ≠ j := by
    intro hcon
    have h1 : k = j.1 := congrArg Fin.val hcon
    have h2 : i.1 < j.1 := hij
    omega
  exact hnames ⟨k, hk⟩ j hkj (hfst ▸ heq)

/-- Closed instance of C1: the earlier-declared `time` intent matches
`"what is the time"`, so `classify_command` does not return the
later-declared `search` intent (entry 3 of the table). -/
theorem classify_command_priority_order_witness :
    (classify_command "what is the time").1 ≠
      (command_patterns.get ⟨3, by decide⟩).1 :=
  classify_command_priority_order.1 "what is the time" ⟨0, by decide⟩ ⟨3, by decide⟩
    (by decide) (by decide)

/-- C2: `classify_command` is total: every string yields exactly one
`(intent, payload)` pair, and the intent is one of the nine table
intents or the fallback `general`. -/
theorem classify_command_total (s : String) :
    (∃! r : String × Payload, classify_command s = r) ∧
    (classify_command s).1 ∈ ["time", "date", "weather", "search", "open_website",
      "greeting", "thanks", "status", "clear", "general"] := by
  refine ⟨⟨classify_command s, rfl, fun y hy => hy.symm⟩, ?_⟩
  cases hg : firstMatch command_patterns (pyNorm s) with
  | none =>
    rw [classify_command_eq, classify_with_of_none hg]
    simp
  | some cg =>
    obtain ⟨c, gs⟩ := cg
    rw [classify_command_eq, classify_with_of_some hg]
    obtain ⟨pats, hmem, -⟩ := firstMatch_mem hg
    have hc : c ∈ command_patterns.map Prod.fst := List.mem_map_of_mem Prod.fst hmem
    have hmap : command_patterns.map Prod.fst =
        ["time", "date", "weather", "search", "open_website",
         "greeting", "thanks", "status", "clear"] := rfl
    rw [hmap] at hc
    simp only [List.mem_cons, List.not_mem_nil, or_false] at hc ⊢
    tauto

/-- C3: if no pattern of the whole table matches the normalised
utterance, `classify_command` returns `('general', normalised text)`;
in particular on `"xyzzy plugh quux"` and on the empty string. -/
theorem classify_command_fallback_spec :
    (∀ s : String,
        (∀ e ∈ command_patterns, ∀ p ∈ e.2, reSearch p (pyNorm s) = Option.none) →
        classify_command s = ("general", Payload.text (String.mk (pyNorm s)))) ∧
    classify_command "xyzzy plugh quux" = ("general", Payload.text "xyzzy plugh quux") ∧
    classify_command "" = ("general", Payload.text "") := by
  refine ⟨?_, by decide, by decide⟩
  intro s h
  have hnone : firstMatch command_patterns (pyNorm s) = Option.none :=
    firstMatch_eq_none_iff.mpr (fun e he => firstPat_eq_none_iff.mpr (h e he))
  rw [classify_command_eq, classify_with_of_none hnone]

/-- Closed instance of C3: every pattern fails on
`"xyzzy plugh quux"`, and the fallback fires. -/
theorem classify_command_fallback_witness :
    classify_command "xyzzy plugh quux" =
      ("general", Payload.text (String.mk (pyNorm "xyzzy plugh quux"))) :=
  classify_command_fallback_spec.1 "xyzzy plugh quux" (by decide)

theorem stripQueryPfx_of_no_match :
    ∀ (pfxs : List String) (text : String),
      (∀ pfx ∈ pfxs, pfx.data.isPrefixOf (pyLowerL text.data) = false) →
      stripQueryPfx pfxs text = text := by
  intro pfxs text
  induction pfxs with
  | nil => intro _; rfl
  | cons q rest ih =>
    intro h
    have hq := h q (List.mem_cons_self _ _)
    rw [stripQueryPfx, if_neg (by simp [hq])]
    exact ih (fun p hp => h p (List.mem_cons_of_mem _ hp))

theorem stripQueryPfx_of_find :
    ∀ (pfxs : List String) (text pfx : String),
      pfxs.find? (fun p => p.data.isPrefixOf (pyLowerL text.data)) = some pfx →
      stripQueryPfx pfxs text = String.mk (pyStripL (text.data.drop pfx.length)) := by
  intro pfxs text
  induction pfxs with
  | nil => intro pfx h; simp at h
  | cons q rest ih =>
    intro pfx h
    by_cases hq : q.data.isPrefixOf (pyLowerL text.data) = true
    · have h2 : List.find? (fun p => p.data.isPrefixOf (pyLowerL text.data)) (q :: rest)
          = some q := List.find?_cons_of_pos rest hq
      rw [h2] at h
      obtain rfl : q = pfx := Option.some.inj h
      rw [stripQueryPfx, if_pos hq]
    · have h2 : List.find? (fun p => p.data.isPrefixOf (pyLowerL text.data)) (q :: rest)
          = List.find? (fun p => p.data.isPrefixOf (pyLowerL text.data)) rest :=
        List.find?_cons_of_neg rest (by simpa using hq)
      rw [h2] at h
      rw [stripQueryPfx, if_neg hq]
      exact ih pfx h

/-- C4: when the winning pattern captured groups, the payload is the
ordered group tuple and extraction takes the last group trimmed:
`"search for the eiffel tower"` gives intent `search` with extraction
`"the eiffel tower"`, and `"open github"` gives `open_website` with
extraction `"github"`. -/
theorem extract_last_group_spec :
    (∀ (text : String) (gs : List String) (h : gs ≠ []),
        extract_search_query text (some gs) = pyStrip (gs.getLast h)) ∧
    classify_command "search for the eiffel tower" =
      ("search", Payload.groups ["search for", "the eiffel tower"]) ∧
    extract_search_query "search for the eiffel tower"
      (some ["search for", "the eiffel tower"]) = "the eiffel tower" ∧
    classify_command "open github" = ("open_website", Payload.groups ["github"]) ∧
    extract_search_query "open github" (some ["github"]) = "github" := by
  refine ⟨?_, by decide, by decide, by decide, by decide⟩
  intro text gs h
  cases gs with
  | nil => exact absurd rfl h
  | cons g rest =>
    show pyStrip ((g :: rest).getLastD "") = pyStrip ((g :: rest).getLast h)
    rw [List.getLastD_eq_getLast?, List.getLast?_eq_getLast _ h]
    rfl

/-- Closed instance of C4's general part at a concrete group tuple. -/
theorem extract_last_group_witness :
    extract_search_query "x" (some ["a", "b"]) =
      pyStrip (["a", "b"].getLast (by decide)) :=
  extract_last_group_spec.1 "x" ["a", "b"] (by decide)

/-- C5: with no capture groups, `extract_search_query` strips the first
matching phrase prefix (in the fixed list order) and trims the rest,
and returns the input unchanged when no prefix matches; in particular
`extract_search_query "tell me about black holes" None` is
`"black holes"`. -/
theorem extract_prefix_fallback_spec :
    (∀ text : String,
        (∀ pfx ∈ query_prefixes, pfx.data.isPrefixOf (pyLowerL text.data) = false) →
        extract_search_query text Option.none = text) ∧
    (∀ text pfx : String,
        query_prefixes.find? (fun p => p.data.isPrefixOf (pyLowerL text.data)) = some pfx →
        extract_search_query text Option.none =
          String.mk (pyStripL (text.data.drop pfx.length))) ∧
    extract_search_query "tell me about black holes" Option.none = "black holes" := by
  refine ⟨?_, ?_, by decide⟩
  · intro text h
    show stripQueryPfx query_prefixes text = text
    exact stripQueryPfx_of_no_match _ _ h
  · intro text pfx h
    show stripQueryPfx query_prefixes text = _
    exact stripQueryPfx_of_find _ _ _ h

/-- Closed instance of C5: no prefix matches `"zzz"`, and the first
matching prefix of `"tell me about black holes"` is
`"tell me about"`. -/
theorem extract_prefix_fallback_witness :
    extract_search_query "zzz" Option.none = "zzz" ∧
    extract_search_query "tell me about black holes" Option.none = "black holes" := by
  constructor
  · exact extract_prefix_fallback_spec.1 "zzz" (by decide)
  · have h := extract_prefix_fallback_spec.2.1 "tell me about black holes"
      "tell me about" (by decide)
    rw [h]
    decide

/-- C7: classification is invariant under the normalisation the method
itself applies: `classify_command (s.strip().lower()) = classify_command s`;
in particular `"  Hello There  "` and `"hello there"` classify
identically. -/
theorem classify_command_norm_invariant :
    (∀ s : String, classify_command (String.mk (pyNorm s)) = classify_command s) ∧
    classify_command "  Hello There  " = classify_command "hello there" := by
  refine ⟨?_, by decide⟩
  intro s
  unfold classify_command classify_with
  rw [pyNorm_mk_pyNorm]

/-- C8: `classify_command` is deterministic and stateless: the method
leaves the processor (its rule table) unchanged, a repeated call on the
same string returns the identical result, and the method of a freshly
constructed processor agrees with the table-level function. -/
theorem classify_command_stateless :
    ∀ (proc : SmartCommandProcessor) (s : String),
      (proc.classify s).2 = proc ∧
      ((proc.classify s).2.classify s).1 = (proc.classify s).1 ∧
      (SmartCommandProcessor.init.classify s).1 = classify_command s :=
  fun _ _ => ⟨rfl, rfl, rfl⟩

/-- C9: the two source variants are not behaviourally equivalent: on
`"what is the time"` `jarvis.py` routes to intent `time`, while the
jarvis12 keyword chain falls through every branch to the chat-model
fallback. -/
theorem variants_route_differently :
    (classify_command "what is the time").1 = "time" ∧
    jarvis12_route "what is the time" = "fallback" ∧
    (classify_command "what is the time").1 ≠ jarvis12_route "what is the time" :=
  ⟨by decide, by decide, by decide⟩

/-- C10: the payload of `classify_command` is always the normalised
text together with intent `general`, or `None`, or a non-empty group
tuple — so `groups[-1]` in `extract_search_query` and
`extracted_data[0]` in the dispatcher are always in range. -/
theorem classify_command_payload_shape (s : String) :
    ((classify_command s).1 = "general" ∧
      (classify_command s).2 = Payload.text (String.mk (pyNorm s))) ∨
    (classify_command s).2 = Payload.none ∨
    ∃ g gs, (classify_command s).2 = Payload.groups (g :: gs) := by
  cases hg : firstMatch command_patterns (pyNorm s) with
  | none =>
    left
    rw [classify_command_eq, classify_with_of_none hg]
    exact ⟨rfl, rfl⟩
  | some cg =>
    obtain ⟨c, gsl⟩ := cg
    cases gsl with
    | nil =>
      right; left
      rw [classify_command_eq, classify_with_of_some hg]
      simp
    | cons a l =>
      right; right
      refine ⟨String.mk a, l.map String.mk, ?_⟩
      rw [classify_command_eq, classify_with_of_some hg]
      simp

/-! ## Structure of matches of the `search` patterns (for C6) -/

theorem length_takeWhile_le (p : Char → Bool) (l : List Char) :
    (l.takeWhile p).length ≤ l.length := by
  induction l with
  | nil => simp
  | cons a l ih =>
    rw [List.takeWhile_cons]
    split
    · simpa using ih
    · simp

theorem charRun_le (t : List Char) (p : Char → Bool) (i : Nat) :
    charRun t p i ≤ t.length - i := by
  unfold charRun
  calc ((t.drop i).takeWhile p).length ≤ (t.drop i).length :=
        length_takeWhile_le p (t.drop i)
    _ = t.length - i := List.length_drop i t

theorem charRun_get (t : List Char) (p : Char → Bool) (i k : Nat)
    (hk : k < charRun t p i) : ∃ c, t.get? (i + k) = some c ∧ p c = true := by
  unfold charRun at hk
  set u := t.drop i with hu
  set a := u.takeWhile p with ha
  obtain ⟨hlt, hget⟩ : ∃ h : k < a.length, a.get ⟨k, h⟩ = a.get ⟨k, hk⟩ := ⟨hk, rfl⟩
  refine ⟨a.get ⟨k, hk⟩, ?_, ?_⟩
  · have h1 : t.get? (i + k) = u.get? k := (List.get?_drop t i k).symm
    have h2 : u.get? k = a.get? k := by
      conv_lhs => rw [← List.takeWhile_append_dropWhile p u]
      exact List.get?_append hk
    rw [h1, h2]
    exact List.get?_eq_some.mpr ⟨hk, rfl⟩
  · exact List.mem_takeWhile_imp (List.get_mem a k hk)

theorem charRun_max (t : List Char) (p : Char → Bool) (i : Nat) {c : Char}
    (hc : t.get? (i + charRun t p i) = some c) : p c = false := by
  unfold charRun at hc
  set u := t.drop i with hu
  set a := u.takeWhile p with ha
  have h1 : t.get? (i + a.length) = u.get? a.length := (List.get?_drop t i a.length).symm
  have h2 : u.get? a.length = (u.dropWhile p).get? 0 := by
    conv_lhs => rw [← List.takeWhile_append_dropWhile p u]
    rw [List.get?_append_right (Nat.le_refl _), Nat.sub_self]
  rw [h1, h2, List.get?_zero] at hc
  exact head?_dropWhile hc

theorem charRun_pos (t : List Char) (p : Char → Bool) (i : Nat) {c : Char}
    (hc : t.get? i = some c) (hp : p c = true) : 0 < charRun t p i := by
  unfold charRun
  have h1 : (t.drop i).get? 0 = some c := by
    rw [List.get?_drop]
    simpa using hc
  rw [List.get?_zero] at h1
  cases hu : t.drop i with
  | nil => rw [hu] at h1; simp at h1
  | cons d l =>
    rw [hu] at h1
    simp at h1
    rw [List.takeWhile_cons, h1, hp]
    simp

theorem mrun_clsPlus_head (t : List Char) (p : Char → Bool) (i : Nat)
    (h : 0 < charRun t p i) :
    ∃ rest, mrun t (.clsPlus p) i = (i + charRun t p i, []) :: rest := by
  obtain ⟨m, hm⟩ : ∃ m, charRun t p i = m + 1 := ⟨charRun t p i - 1, by omega⟩
  refine ⟨((List.range m).map Nat.succ).map
    (fun k => (i + charRun t p i - k, ([] : List (List Char)))), ?_⟩
  show (List.range (charRun t p i)).map _ = _
  rw [hm, List.range_succ_eq_map, List.map_cons, List.map_map, ← hm]
  simp

theorem mrun_noGrp : ∀ (re : RE), noGrp re = true → ∀ (s : List Char) (i : Nat),
    ∀ x ∈ mrun s re i, x.2 = ([] : List (List Char)) := by
  intro re
  induction re with
  | bos =>
    intro _ s i x hx
    unfold mrun at hx
    split at hx <;> simp_all
  | wb =>
    intro _ s i x hx
    unfold mrun at hx
    split at hx <;> simp_all
  | chr c =>
    intro _ s i x hx
    unfold mrun at hx
    split at hx
    · split at hx <;> simp_all
    · simp_all
  | clsPlus p =>
    intro _ s i x hx
    unfold mrun at hx
    obtain ⟨k, -, hk⟩ := List.mem_map.mp hx
    rw [← hk]
  | seq a b iha ihb =>
    intro hg s i x hx
    rw [noGrp, Bool.and_eq_true] at hg
    unfold mrun at hx
    obtain ⟨u, hu, hx2⟩ := List.mem_flatMap.mp hx
    obtain ⟨y, hy, hxy⟩ := List.mem_map.mp hx2
    rw [← hxy]
    show u.2 ++ y.2 = []
    rw [iha hg.1 s i u hu, ihb hg.2 s u.1 y hy]
    rfl
  | alt a b iha ihb =>
    intro hg s i x hx
    rw [noGrp, Bool.and_eq_true] at hg
    unfold mrun at hx
    rcases List.mem_append.mp hx with h | h
    · exact iha hg.1 s i x h
    · exact ihb hg.2 s i x h
  | grp a ih =>
    intro hg
    simp [noGrp] at hg

theorem flatMap_eq_cons {α β : Type} {l : List α} {f : α → List β} {y : β}
    {ys : List β} (h : l.flatMap f = y :: ys) : ∃ x ∈ l, ∃ r, f x = y :: r := by
  induction l with
  | nil => simp at h
  | cons a l ih =>
    rw [List.flatMap_cons] at h
    cases hf : f a with
    | nil =>
      rw [hf, List.nil_append] at h
      obtain ⟨x, hx, r, hr⟩ := ih h
      exact ⟨x, List.mem_cons_of_mem _ hx, r, hr⟩
    | cons b bs =>
      rw [hf] at h
      rw [List.cons_append] at h
      obtain ⟨hb, -⟩ := List.cons.inj h
      exact ⟨a, List.mem_cons_self _ _, bs, by rw [hf, hb]⟩

theorem mrun_seq_bos_pos (t : List Char) (q : RE) (i : Nat) :
    mrun t (.seq .bos q) (i + 1) = [] := by
  have hbos : mrun t .bos (i + 1) = [] := by
    unfold mrun
    simp
  show (mrun t .bos (i + 1)).flatMap _ = []
  rw [hbos]
  rfl

theorem searchFrom_bos_none (t : List Char) (q : RE) :
    ∀ (fuel i : Nat), searchFrom t (.seq .bos q) (i + 1) fuel = Option.none := by
  intro fuel
  induction fuel with
  | zero => intro i; rfl
  | succ n ih =>
    intro i
    rw [searchFrom, mrun_seq_bos_pos]
    exact ih (i + 1)

theorem reSearch_bos {q : RE} {t : List Char} {gs : List (List Char)}
    (h : reSearch (.seq .bos q) t = some gs) :
    ∃ x rest, mrun t (.seq .bos q) 0 = x :: rest ∧ x.2 = gs := by
  unfold reSearch at h
  rw [searchFrom] at h
  cases hm : mrun t (.seq .bos q) 0 with
  | nil =>
    rw [hm] at h
    rw [searchFrom_bos_none] at h
    exact absurd h (by simp)
  | cons x rest =>
    rw [hm] at h
    exact ⟨x, rest, rfl, Option.some.inj h⟩

theorem isDotCh_of_not_space {c : Char} (h : isSpaceCh c = false) :
    isDotCh c = true := by
  unfold isSpaceCh at h
  unfold isDotCh
  simp only [decide_eq_false_iff_not] at h
  simp only [decide_eq_true_eq]
  omega

theorem slice_head (t : List Char) (q e : Nat) (hq : q < e) {c : Char}
    (hc : t.get? q = some c) : ∃ cs, slice t q e = c :: cs := by
  have h1 : (slice t q e).head? = some c := by
    unfold slice
    rw [← List.get?_zero, List.get?_drop]
    rw [Nat.add_zero]
    rw [List.get?_take hq]
    exact hc
  cases hs : slice t q e with
  | nil => rw [hs] at h1; simp at h1
  | cons d l =>
    rw [hs] at h1
    simp at h1
    exact ⟨l, by rw [h1]⟩

/-- Head of the matches of `\s+(.+)` at any position of a string whose
last character is not whitespace: the capture of `(.+)` starts with a
non-whitespace character.  (Greedy `\s+` first tries the whole
whitespace run; the run cannot reach the end of the string, and the
character after it is not whitespace, so `.+` starts there.) -/
theorem mrun_wsP_grp_dotP {t : List Char}
    (hlast : ∀ c, t.getLast? = some c → isSpaceCh c = false)
    {j : Nat} {y : Nat × List (List Char)} {rest : List (Nat × List (List Char))}
    (h : mrun t (.seq wsP (.grp dotP)) j = y :: rest) :
    ∃ c cs, y.2 = [c :: cs] ∧ isSpaceCh c = false := by
  have hseq : mrun t (.seq wsP (.grp dotP)) j =
      (mrun t wsP j).flatMap
        (fun x => (mrun t (.grp dotP) x.1).map (fun z => (z.1, x.2 ++ z.2))) := rfl
  set wr := charRun t isSpaceCh j with hwr
  have hwrpos : 0 < wr := by
    by_contra hc
    have h0 : wr = 0 := by omega
    have : mrun t wsP j = [] := by
      show (List.range (charRun t isSpaceCh j)).map _ = []
      rw [← hwr, h0]
      rfl
    rw [hseq, this] at h
    simp at h
  obtain ⟨rest1, hws0⟩ := mrun_clsPlus_head t isSpaceCh j hwrpos
  have hws : mrun t wsP j = (j + wr, []) :: rest1 := hws0
  set q := j + wr with hq
  have hq_get : ∃ c₀, t.get? q = some c₀ ∧ isSpaceCh c₀ = false := by
    cases hg : t.get? q with
    | none =>
      exfalso
      have hlen : t.length ≤ q := List.get?_eq_none.mp hg
      have hle : wr ≤ t.length - j := charRun_le t isSpaceCh j
      have hjlt : j < t.length := by
        by_contra hj
        have : t.drop j = [] := List.drop_eq_nil_of_le (by omega)
        have : wr = 0 := by
          rw [hwr]
          unfold charRun
          rw [this]
          rfl
        omega
      have hqlen : q = t.length := by omega
      obtain ⟨c, hc, hcs⟩ := charRun_get t isSpaceCh j (wr - 1) (by omega)
      have hidx : j + (wr - 1) = t.length - 1 := by omega
      rw [hidx] at hc
      have hlast' : t.getLast? = some c := by
        rw [List.getLast?_eq_get?]
        exact hc
      rw [hlast c hlast'] at hcs
      exact absurd hcs (by simp)
    | some c₀ =>
      exact ⟨c₀, rfl, charRun_max t isSpaceCh j hg⟩
  obtain ⟨c₀, hc₀, hc₀s⟩ := hq_get
  set dr := charRun t isDotCh q with hdr
  have hdrpos : 0 < dr := charRun_pos t isDotCh q hc₀ (isDotCh_of_not_space hc₀s)
  obtain ⟨rest2, hdot⟩ := mrun_clsPlus_head t isDotCh q hdrpos
  have hdot2 : mrun t dotP q = (q + dr, []) :: rest2 := hdot
  obtain ⟨cs, hslice⟩ := slice_head t q (q + dr) (by omega) hc₀
  have hgrp : mrun t (.grp dotP) q = (q + dr, [c₀ :: cs]) :: rest2.map
      (fun z => (z.1, slice t q z.1 :: z.2)) := by
    show (mrun t dotP q).map _ = _
    rw [hdot2, List.map_cons, ← hslice]
  have hflat : mrun t (.seq wsP (.grp dotP)) j =
      (q + dr, [c₀ :: cs]) :: ((rest2.map (fun z => (z.1, slice t q z.1 :: z.2))).map
        (fun z => (z.1, ([] : List (List Char)) ++ z.2)) ++ rest1.flatMap
        (fun x => (mrun t (.grp dotP) x.1).map (fun z => (z.1, x.2 ++ z.2)))) := by
    rw [hseq, hws, List.flatMap_cons, hgrp]
    rfl
  rw [hflat] at h
  obtain ⟨hy, -⟩ := List.cons.inj h
  exact ⟨c₀, cs, by rw [← hy], hc₀s⟩

/-- Structure of any successful search of a pattern of the shape
`^(A)\s+(.+)` (the three `search` patterns) against a string whose last
character is not whitespace: the groups are exactly `[g1, g2]` and `g2`
starts with a non-whitespace character. -/
theorem search_pattern_groups {A : RE} (hA : noGrp A = true) {t : List Char}
    (hlast : ∀ c, t.getLast? = some c → isSpaceCh c = false)
    {gs : List (List Char)}
    (h : reSearch (.seq .bos (.seq (.grp A) (.seq wsP (.grp dotP)))) t = some gs) :
    ∃ g1 c cs, gs = [g1, c :: cs] ∧ isSpaceCh c = false := by
  obtain ⟨x, rest, hm, hx2⟩ := reSearch_bos h
  have h0 : mrun t (.seq .bos (.seq (.grp A) (.seq wsP (.grp dotP)))) 0 =
      (mrun t (.seq (.grp A) (.seq wsP (.grp dotP))) 0).map
        (fun z => (z.1, ([] : List (List Char)) ++ z.2)) := by
    show (mrun t .bos 0).flatMap _ = _
    have hb : mrun t .bos 0 = [(0, [])] := by unfold mrun; simp
    rw [hb, List.flatMap_cons]
    simp [mrun]
  rw [h0] at hm
  obtain ⟨z, l₁, hz, hzx, -⟩ := List.map_eq_cons_iff.mp hm
  have hinner : mrun t (.seq (.grp A) (.seq wsP (.grp dotP))) 0 =
      (mrun t (.grp A) 0).flatMap
        (fun u => (mrun t (.seq wsP (.grp dotP)) u.1).map
          (fun v => (v.1, u.2 ++ v.2))) := rfl
  rw [hinner] at hz
  obtain ⟨u, hu, r, hr⟩ := flatMap_eq_cons hz
  obtain ⟨v, l₂, hv, hvz, -⟩ := List.map_eq_cons_iff.mp hr
  obtain ⟨c, cs, hv2, hcs⟩ := mrun_wsP_grp_dotP hlast hv
  have hugrp : u.2 = [slice t 0 u.1] := by
    have : mrun t (.grp A) 0 = (mrun t A 0).map
        (fun w => (w.1, slice t 0 w.1 :: w.2)) := rfl
    rw [this] at hu
    obtain ⟨w, hw, hwu⟩ := List.mem_map.mp hu
    have hw2 : w.2 = [] := mrun_noGrp A hA t 0 w hw
    rw [← hwu]
    show slice t 0 w.1 :: w.2 = [slice t 0 (w.1, slice t 0 w.1 :: w.2).1]
    rw [hw2]
  refine ⟨slice t 0 u.1, c, cs, ?_, hcs⟩
  rw [← hx2, ← hzx, ← hvz]
  show ([] : List (List Char)) ++ (u.2 ++ v.2) = _
  rw [hugrp, hv2]
  rfl

theorem firstPat_cons_some {p : RE} {pats : List RE} {t : List Char}
    {g : List (List Char)} (h : reSearch p t = some g) :
    firstPat (p :: pats) t = some g := by
  rw [firstPat, h]

theorem firstPat_cons_none {p : RE} {pats : List RE} {t : List Char}
    (h : reSearch p t = Option.none) :
    firstPat (p :: pats) t = firstPat pats t := by
  rw [firstPat, h]

theorem pyStripL_cons_ne_nil {c : Char} (cs : List Char)
    (hc : isSpaceCh c = false) : pyStripL (c :: cs) ≠ [] := by
  intro h
  unfold pyStripL at h
  rw [List.reverse_eq_nil_iff] at h
  have h1 : (c :: cs).dropWhile isSpaceCh = c :: cs :=
    dropWhile_eq_self_of_head (fun d hd => by
      simp at hd
      rw [← hd]
      exact hc)
  rw [h1] at h
  have h2 := List.dropWhile_eq_nil_iff.mp h c (by simp)
  rw [hc] at h2
  exact absurd h2 (by simp)

/-- C6: extraction never yields an empty argument for a classified
search command: whenever `classify_command` returns intent `search`
with a capture-group payload, `extract_search_query` on that payload is
a non-empty string.  (The winning pattern is `^(...)\s+(.+)`; on the
stripped utterance the greedy `\s+` ends at a non-whitespace character,
so the `(.+)` capture starts with one and survives the final
`strip()`.) -/
theorem search_extraction_nonempty :
    ∀ (s : String) (G : List String),
      classify_command s = ("search", Payload.groups G) →
      extract_search_query s (some G) ≠ "" := by
  intro s G h
  cases hg : firstMatch command_patterns (pyNorm s) with
  | none =>
    rw [classify_command_eq, classify_with_of_none hg] at h
    simp at h
  | some cg =>
    obtain ⟨c, gsl⟩ := cg
    rw [classify_command_eq, classify_with_of_some hg] at h
    rw [Prod.mk.injEq] at h
    obtain ⟨hc, hp⟩ := h
    subst hc
    obtain ⟨pats, hmem, hfp⟩ := firstMatch_mem hg
    have hpats : pats = [pat_search_1, pat_search_2, pat_search_3] := by
      simp only [command_patterns, List.mem_cons, List.not_mem_nil, or_false] at hmem
      rcases hmem with h1 | h1 | h1 | h1 | h1 | h1 | h1 | h1 | h1 <;>
        rw [Prod.mk.injEq] at h1 <;>
        first
          | exact absurd h1.1 (by decide)
          | exact h1.2
    subst hpats
    have hlast : ∀ ch, (pyNorm s).getLast? = some ch → isSpaceCh ch = false :=
      fun ch hch => pyNorm_getLast_not_space s hch
    have hshape : ∃ g1 cc ccs, gsl = [g1, cc :: ccs] ∧ isSpaceCh cc = false := by
      cases hr1 : reSearch pat_search_1 (pyNorm s) with
      | some g =>
        rw [firstPat_cons_some hr1] at hfp
        obtain rfl : g = gsl := Option.some.inj hfp
        exact search_pattern_groups (by rfl) hlast hr1
      | none =>
        rw [firstPat_cons_none hr1] at hfp
        cases hr2 : reSearch pat_search_2 (pyNorm s) with
        | some g =>
          rw [firstPat_cons_some hr2] at hfp
          obtain rfl : g = gsl := Option.some.inj hfp
          exact search_pattern_groups (by rfl) hlast hr2
        | none =>
          rw [firstPat_cons_none hr2] at hfp
          cases hr3 : reSearch pat_search_3 (pyNorm s) with
          | some g =>
            rw [firstPat_cons_some hr3] at hfp
            obtain rfl : g = gsl := Option.some.inj hfp
            exact search_pattern_groups (by rfl) hlast hr3
          | none =>
            rw [firstPat_cons_none hr3] at hfp
            simp [firstPat] at hfp
    obtain ⟨g1, cc, ccs, hgsl, hccs⟩ := hshape
    subst hgsl
    simp only [List.isEmpty_cons, Bool.false_eq_true, if_false, List.map_cons,
      List.map_nil] at hp
    have hG : G = [String.mk g1, String.mk (cc :: ccs)] := by
      have := Payload.groups.inj hp
      rw [← this]
    subst hG
    show pyStrip ([String.mk g1, String.mk (cc :: ccs)].getLastD "") ≠ ""
    have hlastd : [String.mk g1, String.mk (cc :: ccs)].getLastD "" =
        String.mk (cc :: ccs) := rfl
    rw [hlastd]
    intro he
    have hdata : pyStripL (cc :: ccs) = [] := congrArg String.data he
    exact pyStripL_cons_ne_nil ccs hccs hdata

/-- Closed instance of C6 at `"search for the eiffel tower"`. -/
theorem search_extraction_nonempty_witness :
    extract_search_query "search for the eiffel tower"
      (some ["search for", "the eiffel tower"]) ≠ "" :=
  search_extraction_nonempty "search for the eiffel tower"
    ["search for", "the eiffel tower"] (by decide)

end Jarvis

